import Mathlib

/-!
Verification of the atmos event-sourcing engine (package `atmos`).

The development shallowly embeds the engine's commit pipeline
(`Engine.Emit`), state projection (`Engine.GetState`), log replacement
(`Engine.SetEvents`), the polymorphic event (de)serialization
(`Engine.MarshalEvents` / `Engine.UnmarshalEvents`), the in-memory
repository's slice-copy discipline (`InMemory.GetAll` / `InMemory.SetAll`),
and the snapshot merge.

Modelling conventions:
- Go maps (`map[string][]T`) become association lists `List (String × α)`
  with `List.lookup`; a key absent from the map is `none`, which is how
  the code's `value, ok := m[k]` two-result lookups are rendered.
- Event payloads become a flat keyed record of primitive values
  (`List (String × Prim)`); this is all the claims need of a payload.
- Validators and exception conditions are pure predicates over the engine
  state, as the spec requires of them; before-hooks and listeners are
  arbitrary state transformers (they may append to the log by emitting,
  and may perform external side effects, modelled by the `effects` field).
- Go interface equality (`exception.Validator == validator`) partitions
  validator values into equality classes; each validator carries an `id`
  naming its class, and the exception check compares ids.
- A repository is modelled by its observable behaviour on the log:
  `repoAdd` returns the new log or `none` for an `error` result.
-/

namespace Atmos

/-- A primitive JSON-representable field value. -/
inductive Prim where
  | pbool (b : Bool)
  | pint (n : Int)
  | pstr (s : String)
deriving DecidableEq, Repr

/-- A keyed payload (the JSON-representable data of an event). -/
abbrev Payload := List (String × Prim)

/-- An event: a logical type name plus its payload
(Go: the `Event` interface, `Type() string` plus concrete fields). -/
structure Event where
  type : String
  data : Payload
deriving DecidableEq, Repr

/-- The mutable engine state visible to validators, hooks and listeners:
the repository's event log, plus a trace of external side effects that
hooks/listeners may perform (modelling effects outside the engine). -/
structure EngineState where
  log : List Event
  effects : List String
deriving DecidableEq, Repr

/-- An event validator (Go: `EventValidator.Validate(engine, event) bool`).
`id` names the validator's Go interface-equality class, used by the
exception check `exception.Validator == validator`. -/
structure EventValidator where
  id : Nat
  validate : EngineState → Event → Bool

/-- A validator exception (Go: `ValidatorException`): skip the referenced
validator when the condition holds. -/
structure ValidatorException where
  validator : Nat
  condition : EngineState → Event → Bool
  reason : String

/-- A before-hook or listener (Go: `EventListener.Handle(engine, event)`):
an arbitrary state transformer — in particular it may emit further events,
which appends to the log. -/
abbrev Handler := EngineState → Event → EngineState

/-- A registered state reducer (Go: `StateReducer`), folding one event
onto a state value.  The Go reducer also receives the engine handle, used
only for reading; a closure over the engine is a function of this shape. -/
abbrev StateReducer (σ : Type) := σ → Event → σ

/-- A reducer with an execution priority (Go: `OrderedReducer`). -/
structure OrderedReducer (σ : Type) where
  stateName : String
  reducer : StateReducer σ
  priority : Int

/-- A state's registry entry (Go: `StateRegistry`). -/
structure StateRegistry (σ : Type) where
  initialState : σ
  reducers : List (String × StateReducer σ)

/-- An event factory entry (Go: `func() Event` registered under a type
name).  `decode` renders the deserialization path for this entry: Go
re-marshals the wrapper's raw data and unmarshals it into the factory's
fresh event; `none` models either of the two per-event failure branches. -/
structure EventFactory where
  decode : Payload → Option Event

/-- The engine's registries and repository behaviour (Go: the `Engine`
struct fields, with the repository abstracted to its `Add` behaviour). -/
structure EngineConfig (σ : Type) where
  validators : List (String × List EventValidator)
  exceptions : List (String × List ValidatorException)
  beforeHooks : List (String × List Handler)
  listeners : List (String × List Handler)
  states : List (String × StateRegistry σ)
  orderedReducers : List (String × List (OrderedReducer σ))
  eventFactories : List (String × EventFactory)
  repoAdd : List Event → Event → Option (List Event)

/-- Look a key up in an association-list map, defaulting to `[]`
(Go: indexing a `map[string][]T`, whose zero value is the nil slice). -/
def lookupD {α : Type} (m : List (String × α)) (k : String) (d : α) : α :=
  (m.lookup k).getD d

/-- The in-memory repository's `Add`: append, never an error
(Go: `InMemory.Add`). -/
def inMemoryAdd (log : List Event) (ev : Event) : Option (List Event) :=
  some (log ++ [ev])

/-- Whether some exception registered for the event type references this
validator and its condition holds (the inner loop of `Engine.Emit`). -/
def shouldSkip (exceptions : List ValidatorException) (v : EventValidator)
    (s : EngineState) (ev : Event) : Bool :=
  exceptions.any fun ex => ex.validator == v.id && ex.condition s ev

/-- The validator loop of `Engine.Emit`: each validator is skipped when an
exception applies, otherwise it must approve; the first non-skipped
refusal rejects immediately. -/
def passesValidators (validators : List EventValidator)
    (exceptions : List ValidatorException)
    (s : EngineState) (ev : Event) : Bool :=
  match validators with
  | [] => true
  | v :: rest =>
    if shouldSkip exceptions v s ev then
      passesValidators rest exceptions s ev
    else if v.validate s ev then
      passesValidators rest exceptions s ev
    else
      false

/-- Run a list of hooks/listeners in order, threading the engine state
(the `for _, hook := range ...` loops of `Engine.Emit`). -/
def runHandlers (hs : List Handler) (s : EngineState) (ev : Event) : EngineState :=
  hs.foldl (fun st h => h st ev) s

/-- `Engine.Emit`: validate (with exceptions), run before-hooks, commit
to the repository, run listeners; returns the new state and the boolean
result reported to the caller. -/
def Emit {σ : Type} (cfg : EngineConfig σ) (s : EngineState) (ev : Event) :
    EngineState × Bool :=
  let validators := lookupD cfg.validators ev.type []
  let exceptions := lookupD cfg.exceptions ev.type []
  if passesValidators validators exceptions s ev then
    let s1 := runHandlers (lookupD cfg.beforeHooks ev.type []) s ev
    match cfg.repoAdd s1.log ev with
    | none => (s1, false)
    | some newLog =>
      let s2 : EngineState := { s1 with log := newLog }
      (runHandlers (lookupD cfg.listeners ev.type []) s2 ev, true)
  else
    (s, false)

/-- Set or add a key in an association-list map (Go: `m[k] = v`). -/
def mapSet {α : Type} (m : List (String × α)) (k : String) (v : α) :
    List (String × α) :=
  if (m.lookup k).isSome then
    m.map fun p => if p.1 = k then (k, v) else p
  else
    m ++ [(k, v)]

/-- `Engine.RegisterValidator`: append to the validator list for the type. -/
def RegisterValidator {σ : Type} (cfg : EngineConfig σ) (eventType : String)
    (v : EventValidator) : EngineConfig σ :=
  let vs := lookupD cfg.validators eventType [] ++ [v]
  { cfg with validators := mapSet cfg.validators eventType vs }

/-- `Engine.RegisterException`: append to the exception list for the type. -/
def RegisterException {σ : Type} (cfg : EngineConfig σ) (eventType : String)
    (ex : ValidatorException) : EngineConfig σ :=
  let exs := lookupD cfg.exceptions eventType [] ++ [ex]
  { cfg with exceptions := mapSet cfg.exceptions eventType exs }

/-- Insert an ordered reducer into a priority-sorted list, keeping it
sorted (renders `append` + `sort.Slice` by ascending `Priority` in
`Engine.RegisterOrderedReducer`; `sort.Slice` leaves the relative order
of equal priorities unspecified, so any sorted result is a faithful
rendering). -/
def insertByPriority {σ : Type} (x : OrderedReducer σ) :
    List (OrderedReducer σ) → List (OrderedReducer σ)
  | [] => [x]
  | y :: ys =>
    if x.priority ≤ y.priority then x :: y :: ys
    else y :: insertByPriority x ys

/-- `Engine.RegisterOrderedReducer`: add a prioritised reducer for the
event type and keep the list sorted by ascending priority. -/
def RegisterOrderedReducer {σ : Type} (cfg : EngineConfig σ)
    (eventType stateName : String) (reducer : StateReducer σ)
    (priority : Int) : EngineConfig σ :=
  let r : OrderedReducer σ :=
    { stateName := stateName, reducer := reducer, priority := priority }
  let ors := insertByPriority r (lookupD cfg.orderedReducers eventType [])
  { cfg with orderedReducers := mapSet cfg.orderedReducers eventType ors }

/-- The inner loop of `Engine.GetState` over the ordered reducers of one
event type: apply, in list order, exactly those targeting this state. -/
def applyOrdered {σ : Type} (name : String) (ors : List (OrderedReducer σ))
    (st : σ) (ev : Event) : σ :=
  ors.foldl (fun acc r => if r.stateName = name then r.reducer acc ev else acc) st

/-- One step of the `Engine.GetState` fold: ordered reducers for the
event's type take precedence over the state's own reducer map. -/
def getStateStep {σ : Type} (cfg : EngineConfig σ) (registry : StateRegistry σ)
    (name : String) (st : σ) (ev : Event) : σ :=
  match cfg.orderedReducers.lookup ev.type with
  | some ors => applyOrdered name ors st ev
  | none =>
    match registry.reducers.lookup ev.type with
    | some r => r st ev
    | none => st

/-- `Engine.GetState`: `none` (Go `nil`) for an unregistered name,
otherwise the fold of the whole log from the registered initial state. -/
def GetState {σ : Type} (cfg : EngineConfig σ) (log : List Event)
    (name : String) : Option σ :=
  match cfg.states.lookup name with
  | none => none
  | some registry =>
    some (log.foldl (getStateStep cfg registry name) registry.initialState)

/-- `Engine.SetEvents`: delegate to the repository's `SetAll`; an error
becomes a panic (rendered as `Except.error` carrying the panic message),
success leaves the repository holding what `SetAll` stored. -/
def SetEvents (setAll : List Event → Except String (List Event))
    (events : List Event) : Except String (List Event) :=
  match setAll events with
  | Except.error msg =>
    Except.error ("failed to set events in repository: " ++ msg)
  | Except.ok stored => Except.ok stored

/-- The in-memory repository's `SetAll`: store a copy of the given
slice, never an error (Go: `InMemory.SetAll`). -/
def inMemorySetAll (events : List Event) : Except String (List Event) :=
  Except.ok events

/-- A serialized event wrapper (Go: `EventWrapper{Type, Data}`). -/
structure EventWrapper where
  type : String
  data : Payload
deriving DecidableEq, Repr

/-- A top-level serialized document: either a well-formed wrapper list
or malformed JSON that fails the top-level `json.Unmarshal`. -/
inductive JsonDoc where
  | wrappers (ws : List EventWrapper)
  | malformed (raw : String)

/-- `Engine.MarshalEvents`: wrap each event as a `{type, data}` pair,
embedding its payload as-is. -/
def MarshalEvents (events : List Event) : List EventWrapper :=
  events.map fun ev => { type := ev.type, data := ev.data }

/-- The wrapper loop of `Engine.UnmarshalEvents`: look each type name up
in the factory registry (absent → `continue`), then re-encode and decode
the payload into the constructed event (either failure → `continue`),
collecting the events that survive. -/
def decodeLoop {σ : Type} (cfg : EngineConfig σ) :
    List EventWrapper → List Event
  | [] => []
  | w :: rest =>
    match cfg.eventFactories.lookup w.type with
    | none => decodeLoop cfg rest
    | some factory =>
      match factory.decode w.data with
      | none => decodeLoop cfg rest
      | some event => event :: decodeLoop cfg rest

/-- `Engine.UnmarshalEvents`: a malformed top-level document is the only
error; otherwise run the wrapper loop. -/
def UnmarshalEvents {σ : Type} (cfg : EngineConfig σ) (doc : JsonDoc) :
    Except String (List Event) :=
  match doc with
  | JsonDoc.malformed _ => Except.error "invalid JSON"
  | JsonDoc.wrappers ws => Except.ok (decodeLoop cfg ws)

/-- Specification form of one wrapper's fate under deserialization: the
factory registered for its type name, applied to its payload. -/
def decodeWrapper {σ : Type} (cfg : EngineConfig σ) (w : EventWrapper) :
    Option Event :=
  (cfg.eventFactories.lookup w.type).bind fun factory => factory.decode w.data

/-! ### Specification-worded projection (for comparison with `GetState`) -/

/-- Sort ordered reducers by ascending priority (insertion sort). -/
def sortByPriority {σ : Type} (l : List (OrderedReducer σ)) :
    List (OrderedReducer σ) :=
  l.foldr insertByPriority []

/-- One fold step, following the spec's words: if any ordered reducers
are registered for the event's type, apply — in ascending priority
order — only those whose target state name equals the projected name;
otherwise apply the single unordered reducer registered for the
(name, type) pair if one exists; otherwise skip the event. -/
def specProjectStep {σ : Type} (cfg : EngineConfig σ)
    (registry : StateRegistry σ) (name : String) (st : σ) (ev : Event) : σ :=
  match cfg.orderedReducers.lookup ev.type with
  | some ors =>
    (sortByPriority (ors.filter fun r => r.stateName = name)).foldl
      (fun acc r => r.reducer acc ev) st
  | none =>
    match registry.reducers.lookup ev.type with
    | some r => r st ev
    | none => st

/-- The projection contract as the spec words it: absent marker for an
unregistered name, else the fold of the whole log in commit order. -/
def projectSpec {σ : Type} (cfg : EngineConfig σ) (log : List Event)
    (name : String) : Option σ :=
  match cfg.states.lookup name with
  | none => none
  | some registry =>
    some (log.foldl (specProjectStep cfg registry name) registry.initialState)

/-- An ordered-reducer list sorted by ascending priority. -/
def PrioritySorted {σ : Type} (l : List (OrderedReducer σ)) : Prop :=
  l.Pairwise fun a b => a.priority ≤ b.priority

/-! ### Slice/heap model of the in-memory repository

Go slices are references into backing arrays; `append([]Event{}, xs...)`
allocates a fresh backing array holding a copy.  The heap maps array
references (allocation indices) to their contents; mutating a slice
element writes through its reference. -/

/-- The slice heap: array reference → contents. -/
abbrev Heap := List (List Event)

/-- Read the array a slice reference points at (out-of-range reads are
irrelevant here and default to empty). -/
def heapRead (h : Heap) (r : Nat) : List Event :=
  h.getD r []

/-- Allocate a fresh backing array (what `append([]Event{}, xs...)`
does), returning the new heap and the fresh reference. -/
def heapAlloc (h : Heap) (a : List Event) : Heap × Nat :=
  (h ++ [a], h.length)

/-- Mutate one element of the array behind a slice reference
(`slice[i] = ev` in the caller's hands). -/
def heapWrite (h : Heap) (r : Nat) (i : Nat) (ev : Event) : Heap :=
  h.set r ((h.getD r []).set i ev)

/-- The in-memory repository: a reference to its events array
(Go: `InMemory{events []types.Event}`). -/
structure InMemory where
  eventsRef : Nat

/-- `InMemory.GetAll`: `append([]types.Event{}, r.events...)` — copy the
stored events into a freshly allocated array and return that slice. -/
def InMemory.GetAll (h : Heap) (repo : InMemory) : Heap × Nat :=
  heapAlloc h (heapRead h repo.eventsRef)

/-- `InMemory.SetAll`: `r.events = append([]types.Event{}, events...)` —
copy the caller's slice into a fresh array and point the store at it. -/
def InMemory.SetAll (h : Heap) (_repo : InMemory) (ref : Nat) :
    Heap × InMemory :=
  let p := heapAlloc h (heapRead h ref)
  (p.1, { eventsRef := p.2 })

/-! ### Snapshot merge (modelled from the spec) -/

/-- A typed state value as the snapshot merge sees it: either a keyed
record of serializable fields, or a value whose serialization fails
(e.g. a struct holding a channel); `tag` distinguishes such values. -/
inductive SnapState where
  | record (fields : List (String × Prim))
  | unserializable (tag : Nat)
deriving DecidableEq, Repr

/-- Snapshot bytes: either a keyed partial overlay or malformed JSON. -/
inductive SnapshotDoc where
  | fields (overlay : List (String × Prim))
  | malformed (raw : String)

/-- Serialize an initial state to its canonical keyed representation;
`none` when serialization fails. -/
def serializeState : SnapState → Option (List (String × Prim))
  | SnapState.record fs => some fs
  | SnapState.unserializable _ => none

/-- Overlay the snapshot's fields onto the keyed representation: fields
present in the overlay override, absent fields retain the initial value
(keys foreign to the representation are dropped when the merged form is
decoded back into the concrete state type). -/
def overlayFields (rep overlay : List (String × Prim)) :
    List (String × Prim) :=
  rep.map fun kv => (kv.1, (overlay.lookup kv.1).getD kv.2)

/-- Modelled from the spec: `Engine.mergeSnapshot` is not among the
provided sources (only its tests are); per spec §4.4, serialize the
initial value (fail-soft to `initial`), overlay the snapshot's fields
onto it (fail-soft to `initial` on malformed bytes), and decode the
merged representation back into the concrete state type. -/
def mergeSnapshot (initial : SnapState) (snap : SnapshotDoc) : SnapState :=
  match serializeState initial with
  | none => initial
  | some rep =>
    match snap with
    | SnapshotDoc.malformed _ => initial
    | SnapshotDoc.fields overlay => SnapState.record (overlayFields rep overlay)

/-! ### Concrete example material (used to instantiate the theorems) -/

/-- The empty engine state. -/
def s0 : EngineState := { log := [], effects := [] }

/-- An order event. -/
def evA : Event := { type := "order_placed", data := [("amount", Prim.pint 5)] }

/-- An invoice event (as a before-hook would emit). -/
def evB : Event := { type := "invoice_generated", data := [] }

/-- A payment event (as a listener would emit). -/
def evC : Event := { type := "payment_validated", data := [] }

/-- A validator that rejects every event. -/
def rejectAll : EventValidator := { id := 1, validate := fun _ _ => false }

/-- An exception referencing validator 1, always applicable. -/
def exFree : ValidatorException :=
  { validator := 1, condition := fun _ _ => true
    reason := "free orders skip payment" }

/-- A validator (distinct identity from `rejectAll`) that accepts. -/
def acceptAll : EventValidator := { id := 2, validate := fun _ _ => true }

/-- An engine with empty registries over the in-memory repository. -/
def emptyCfg : EngineConfig Int :=
  { validators := [], exceptions := [], beforeHooks := [], listeners := []
    states := [], orderedReducers := [], eventFactories := []
    repoAdd := inMemoryAdd }

/-- An engine whose only validator rejects order events. -/
def cfgReject : EngineConfig Int :=
  { emptyCfg with validators := [("order_placed", [rejectAll])] }

/-- A before-hook that synchronously emits (appends) an invoice event. -/
def hookEmitB : Handler := fun st _ => { st with log := st.log ++ [evB] }

/-- A listener that synchronously emits (appends) a payment event. -/
def listenEmitC : Handler := fun st _ => { st with log := st.log ++ [evC] }

/-- An engine with one before-hook and one listener on order events. -/
def cfgDispatch : EngineConfig Int :=
  { emptyCfg with
    beforeHooks := [("order_placed", [hookEmitB])]
    listeners := [("order_placed", [listenEmitC])] }

/-- A before-hook with an external side effect. -/
def hookEffect : Handler :=
  fun st _ => { st with effects := st.effects ++ ["invoice issued"] }

/-- An engine whose repository rejects every `Add`. -/
def cfgFail : EngineConfig Int :=
  { emptyCfg with
    beforeHooks := [("order_placed", [hookEffect])]
    repoAdd := fun _ _ => none }

/-- Two ordered reducers for score events, priorities 1 and 2. -/
def orsProj : List (OrderedReducer Int) :=
  [{ stateName := "counter", reducer := fun st _ => st + 10, priority := 1 },
   { stateName := "other", reducer := fun st _ => st, priority := 2 }]

/-- An engine with a counter state and ordered reducers on score events. -/
def cfgProj : EngineConfig Int :=
  { emptyCfg with
    states := [("counter",
      { initialState := 0, reducers := [("order_placed", fun st _ => st + 1)] })]
    orderedReducers := [("score", orsProj)] }

/-- A score event (its type has ordered reducers in `cfgProj`). -/
def evScore : Event := { type := "score", data := [] }

/-- The factory registered for order events: decoding rebuilds the event
from the wrapper's payload. -/
def factOrder : EventFactory :=
  { decode := fun d => some { type := "order_placed", data := d } }

/-- A factory whose payload decode always fails. -/
def factBad : EventFactory := { decode := fun _ => none }

/-- An engine with one working and one failing event factory. -/
def cfgSer : EngineConfig Int :=
  { emptyCfg with eventFactories :=
      [("order_placed", factOrder), ("bad_payload", factBad)] }

/-- A wrapper whose type name has no registered factory. -/
def wUnknown : EventWrapper := { type := "mystery", data := [] }

/-- A wrapper whose payload fails to decode. -/
def wBad : EventWrapper := { type := "bad_payload", data := [] }

/-- A wrapper that decodes into an order event. -/
def wGood : EventWrapper :=
  { type := "order_placed", data := [("amount", Prim.pint 5)] }

/-- A repository whose `SetAll` always errors. -/
def failSetAll : List Event → Except String (List Event) :=
  fun _ => Except.error "simulated repository failure"

/-- A one-array heap holding the repository's events. -/
def h0 : Heap := [[evA]]

/-- A repository pointing at the heap's only array. -/
def repo0 : InMemory := { eventsRef := 0 }

/-! ### Helper lemmas -/

lemma emit_of_fail {σ : Type} (cfg : EngineConfig σ) (s : EngineState)
    (ev : Event)
    (h : passesValidators (lookupD cfg.validators ev.type [])
      (lookupD cfg.exceptions ev.type []) s ev = false) :
    Emit cfg s ev = (s, false) := by
  simp [Emit, h]

lemma emit_of_pass_addNone {σ : Type} (cfg : EngineConfig σ)
    (s : EngineState) (ev : Event)
    (hpass : passesValidators (lookupD cfg.validators ev.type [])
      (lookupD cfg.exceptions ev.type []) s ev = true)
    (hadd : cfg.repoAdd
      (runHandlers (lookupD cfg.beforeHooks ev.type []) s ev).log ev = none) :
    Emit cfg s ev = (runHandlers (lookupD cfg.beforeHooks ev.type []) s ev, false) := by
  simp [Emit, hpass, hadd]

lemma emit_of_pass_addSome {σ : Type} (cfg : EngineConfig σ)
    (s : EngineState) (ev : Event) (newLog : List Event)
    (hpass : passesValidators (lookupD cfg.validators ev.type [])
      (lookupD cfg.exceptions ev.type []) s ev = true)
    (hadd : cfg.repoAdd
      (runHandlers (lookupD cfg.beforeHooks ev.type []) s ev).log ev = some newLog) :
    Emit cfg s ev =
      (runHandlers (lookupD cfg.listeners ev.type [])
        { runHandlers (lookupD cfg.beforeHooks ev.type []) s ev with log := newLog }
        ev, true) := by
  simp [Emit, hpass, hadd]

lemma passesValidators_append (a b : List EventValidator)
    (exs : List ValidatorException) (s : EngineState) (ev : Event) :
    passesValidators (a ++ b) exs s ev =
      (passesValidators a exs s ev && passesValidators b exs s ev) := by
  induction a with
  | nil => simp [passesValidators]
  | cons v rest ih =>
    by_cases hs : shouldSkip exs v s ev
    · simpa [passesValidators, hs] using ih
    · by_cases hv : v.validate s ev
      · simpa [passesValidators, hs, hv] using ih
      · simp [passesValidators, hs, hv]

/-! ### Claim theorems -/

/-- C1. Emit contract: `Emit` returns `true` and commits exactly when
every validator registered for the event's type passes or is skipped by
an applicable exception (vacuously with none registered) and the
repository add succeeds; a non-skipped refusal rejects immediately — the
result is `false` whatever validators follow, the state (hence the log)
is untouched, and no before-hooks or listeners run. -/
theorem emit_contract {σ : Type} (cfg : EngineConfig σ) (s : EngineState)
    (ev : Event) :
    ((Emit cfg s ev).2 = true ↔
      (passesValidators (lookupD cfg.validators ev.type [])
          (lookupD cfg.exceptions ev.type []) s ev = true ∧
        (cfg.repoAdd
          (runHandlers (lookupD cfg.beforeHooks ev.type []) s ev).log
          ev).isSome = true)) ∧
    (passesValidators (lookupD cfg.validators ev.type [])
        (lookupD cfg.exceptions ev.type []) s ev = false →
      Emit cfg s ev = (s, false)) ∧
    (∀ (pre : List EventValidator) (v : EventValidator)
        (post : List EventValidator),
      shouldSkip (lookupD cfg.exceptions ev.type []) v s ev = false →
      v.validate s ev = false →
      passesValidators (pre ++ v :: post)
        (lookupD cfg.exceptions ev.type []) s ev = false) ∧
    (∀ newLog : List Event,
      passesValidators (lookupD cfg.validators ev.type [])
        (lookupD cfg.exceptions ev.type []) s ev = true →
      cfg.repoAdd (runHandlers (lookupD cfg.beforeHooks ev.type []) s ev).log
          ev = some newLog →
      Emit cfg s ev =
        (runHandlers (lookupD cfg.listeners ev.type [])
          { runHandlers (lookupD cfg.beforeHooks ev.type []) s ev with
              log := newLog } ev, true)) := by
  refine ⟨?_, ?_, ?_, ?_⟩
  · constructor
    · intro h
      by_cases hp : passesValidators (lookupD cfg.validators ev.type [])
          (lookupD cfg.exceptions ev.type []) s ev = true
      · refine ⟨hp, ?_⟩
        cases hadd : cfg.repoAdd
            (runHandlers (lookupD cfg.beforeHooks ev.type []) s ev).log ev with
        | none => rw [emit_of_pass_addNone cfg s ev hp hadd] at h; exact absurd h (by simp)
        | some newLog => simp [hadd]
      · rw [emit_of_fail cfg s ev (by simpa using hp)] at h
        exact absurd h (by simp)
    · rintro ⟨hp, hadd⟩
      cases hadd' : cfg.repoAdd
          (runHandlers (lookupD cfg.beforeHooks ev.type []) s ev).log ev with
      | none => rw [hadd'] at hadd; exact absurd hadd (by simp)
      | some newLog => rw [emit_of_pass_addSome cfg s ev newLog hp hadd']
  · intro h
    exact emit_of_fail cfg s ev h
  · intro pre v post hskip hval
    rw [passesValidators_append]
    have : passesValidators (v :: post)
        (lookupD cfg.exceptions ev.type []) s ev = false := by
      simp [passesValidators, hskip, hval]
    simp [this]
  · intro newLog hp hadd
    exact emit_of_pass_addSome cfg s ev newLog hp hadd

/-- C1 witness: a rejecting validator leaves the state untouched, and an
unvalidated event on the in-memory repository commits. -/
theorem emit_contract_witness :
    Emit cfgReject s0 evA = (s0, false) ∧
    Emit emptyCfg s0 evA = ({ log := [evA], effects := [] }, true) :=
  ⟨(emit_contract cfgReject s0 evA).2.1 rfl,
   (emit_contract emptyCfg s0 evA).2.2.2 [evA] rfl rfl⟩

lemma runHandlers_extends (hs : List Handler) (s : EngineState) (ev : Event)
    (h : ∀ f ∈ hs, ∀ st : EngineState, ∃ t, (f st ev).log = st.log ++ t) :
    ∃ t, (runHandlers hs s ev).log = s.log ++ t := by
  induction hs generalizing s with
  | nil => exact ⟨[], by simp [runHandlers]⟩
  | cons f rest ih =>
    obtain ⟨t1, ht1⟩ := h f (by simp) s
    obtain ⟨t2, ht2⟩ :=
      ih (f s ev) (fun g hg st => h g (List.mem_cons_of_mem f hg) st)
    refine ⟨t1 ++ t2, ?_⟩
    have : runHandlers (f :: rest) s ev = runHandlers rest (f s ev) ev := rfl
    rw [this, ht2, ht1, List.append_assoc]

/-- C2. Dispatch ordering: for an accepted event on the in-memory
repository, before-hooks run first (in registration order — `runHandlers`
folds the registered list left to right), the event is appended, then
listeners run; so anything a before-hook emitted sits at an earlier log
index than the event's own entry, and anything a listener emitted sits at
a later one.  The hypotheses say each hook/listener only extends the log,
which is all a synchronous nested `Emit` can do to it. -/
theorem dispatch_ordering {σ : Type} (cfg : EngineConfig σ)
    (s : EngineState) (ev : Event)
    (hadd : cfg.repoAdd = inMemoryAdd)
    (hpass : passesValidators (lookupD cfg.validators ev.type [])
      (lookupD cfg.exceptions ev.type []) s ev = true)
    (hhooks : ∀ f ∈ lookupD cfg.beforeHooks ev.type [],
      ∀ st : EngineState, ∃ t, (f st ev).log = st.log ++ t)
    (hls : ∀ f ∈ lookupD cfg.listeners ev.type [],
      ∀ st : EngineState, ∃ t, (f st ev).log = st.log ++ t) :
    Emit cfg s ev =
      (runHandlers (lookupD cfg.listeners ev.type [])
        { runHandlers (lookupD cfg.beforeHooks ev.type []) s ev with
            log := (runHandlers (lookupD cfg.beforeHooks ev.type []) s ev).log
              ++ [ev] } ev, true) ∧
    (∃ u, (runHandlers (lookupD cfg.beforeHooks ev.type []) s ev).log =
      s.log ++ u) ∧
    (∃ t, (Emit cfg s ev).1.log =
      (runHandlers (lookupD cfg.beforeHooks ev.type []) s ev).log ++ ev :: t) ∧
    (Emit cfg s ev).1.log[(runHandlers (lookupD cfg.beforeHooks ev.type [])
        s ev).log.length]? = some ev := by
  have hadd' : cfg.repoAdd
      (runHandlers (lookupD cfg.beforeHooks ev.type []) s ev).log ev =
      some ((runHandlers (lookupD cfg.beforeHooks ev.type []) s ev).log
        ++ [ev]) := by
    rw [hadd]; rfl
  have hmain := emit_of_pass_addSome cfg s ev _ hpass hadd'
  refine ⟨hmain, runHandlers_extends _ s ev hhooks, ?_, ?_⟩
  · obtain ⟨t, ht⟩ := runHandlers_extends (lookupD cfg.listeners ev.type [])
      { runHandlers (lookupD cfg.beforeHooks ev.type []) s ev with
          log := (runHandlers (lookupD cfg.beforeHooks ev.type []) s ev).log
            ++ [ev] } ev hls
    refine ⟨t, ?_⟩
    rw [hmain]
    simpa [List.append_assoc] using ht
  · obtain ⟨t, ht⟩ := runHandlers_extends (lookupD cfg.listeners ev.type [])
      { runHandlers (lookupD cfg.beforeHooks ev.type []) s ev with
          log := (runHandlers (lookupD cfg.beforeHooks ev.type []) s ev).log
            ++ [ev] } ev hls
    rw [hmain]
    simp only [ht]
    rw [List.append_assoc]
    rw [List.getElem?_append_right (Nat.le_refl _)]
    simp

/-- C2 witness: a hook-emitted invoice lands at index 0, the order event
at index 1, and a listener-emitted payment event at index 2. -/
theorem dispatch_ordering_witness :
    Emit cfgDispatch s0 evA =
      ({ log := [evB, evA, evC], effects := [] }, true) ∧
    (Emit cfgDispatch s0 evA).1.log[(1 : Nat)]? = some evA :=
  have hh : ∀ f ∈ lookupD cfgDispatch.beforeHooks evA.type [],
      ∀ st : EngineState, ∃ t, (f st evA).log = st.log ++ t := by
    intro f hf st
    rw [show lookupD cfgDispatch.beforeHooks evA.type [] = [hookEmitB] from rfl,
      List.mem_singleton] at hf
    exact hf ▸ ⟨[evB], rfl⟩
  have hl : ∀ f ∈ lookupD cfgDispatch.listeners evA.type [],
      ∀ st : EngineState, ∃ t, (f st evA).log = st.log ++ t := by
    intro f hf st
    rw [show lookupD cfgDispatch.listeners evA.type [] = [listenEmitC] from rfl,
      List.mem_singleton] at hf
    exact hf ▸ ⟨[evC], rfl⟩
  ⟨(dispatch_ordering cfgDispatch s0 evA rfl rfl hh hl).1,
   (dispatch_ordering cfgDispatch s0 evA rfl rfl hh hl).2.2.2⟩

/-- C3. Exception specificity: an exception skips exactly the validator
it references (by Go interface equality, rendered as the `id` class) and
only when its condition holds; a skipped validator is treated as passed
and the loop continues; a validator referenced by no exception always
runs; registering an exception leaves the validator registry untouched. -/
theorem exception_specificity {σ : Type} (cfg : EngineConfig σ)
    (exs : List ValidatorException) (v : EventValidator)
    (s : EngineState) (ev : Event) (t : String) (ex' : ValidatorException) :
    (shouldSkip exs v s ev = true ↔
      ∃ ex ∈ exs, ex.validator = v.id ∧ ex.condition s ev = true) ∧
    (∀ rest : List EventValidator, shouldSkip exs v s ev = true →
      passesValidators (v :: rest) exs s ev =
        passesValidators rest exs s ev) ∧
    ((∀ ex ∈ exs, ex.validator ≠ v.id) →
      shouldSkip exs v s ev = false ∧
      ∀ rest : List EventValidator,
        passesValidators (v :: rest) exs s ev =
          (v.validate s ev && passesValidators rest exs s ev)) ∧
    (RegisterException cfg t ex').validators = cfg.validators := by
  refine ⟨?_, ?_, ?_, rfl⟩
  · simp [shouldSkip, List.any_eq_true, Bool.and_eq_true, beq_iff_eq]
  · intro rest h
    simp [passesValidators, h]
  · intro hnone
    have hs : shouldSkip exs v s ev = false := by
      simp only [shouldSkip, List.any_eq_false]
      intro ex hex
      simp [beq_iff_eq, hnone ex hex]
    refine ⟨hs, fun rest => ?_⟩
    by_cases hv : v.validate s ev
    · simp [passesValidators, hs, hv]
    · simp [passesValidators, hs, hv]

/-- C3 witness: the only exception references validator 1, so validator 2
is not skipped and the pipeline reduces to its own verdict. -/
theorem exception_specificity_witness :
    shouldSkip [exFree] acceptAll s0 evA = false ∧
    passesValidators [acceptAll] [exFree] s0 evA =
      (acceptAll.validate s0 evA && passesValidators [] [exFree] s0 evA) :=
  have hnone : ∀ ex ∈ [exFree], ex.validator ≠ acceptAll.id := by
    intro ex hex
    rw [List.mem_singleton] at hex
    subst hex
    decide
  ⟨((exception_specificity emptyCfg [exFree] acceptAll s0 evA "order_placed"
      exFree).2.2.1 hnone).1,
   ((exception_specificity emptyCfg [exFree] acceptAll s0 evA "order_placed"
      exFree).2.2.1 hnone).2 []⟩

/-- C4. Commit-failure semantics: when validation passes but the
repository `Add` errors, `Emit` reports `false` and the final state is
exactly the post-hook state — the event was not appended and no listener
ran, but the before-hooks' effects stand un-rolled-back. -/
theorem commit_failure_semantics {σ : Type} (cfg : EngineConfig σ)
    (s : EngineState) (ev : Event)
    (hpass : passesValidators (lookupD cfg.validators ev.type [])
      (lookupD cfg.exceptions ev.type []) s ev = true)
    (hfail : cfg.repoAdd
      (runHandlers (lookupD cfg.beforeHooks ev.type []) s ev).log ev = none) :
    Emit cfg s ev =
      (runHandlers (lookupD cfg.beforeHooks ev.type []) s ev, false) ∧
    (ev ∉ (runHandlers (lookupD cfg.beforeHooks ev.type []) s ev).log →
      ev ∉ (Emit cfg s ev).1.log) := by
  have h := emit_of_pass_addNone cfg s ev hpass hfail
  exact ⟨h, fun hm => by rw [h]; exact hm⟩

/-- C4 witness: with an always-failing repository, the order event is
rejected and absent, yet the before-hook's side effect persists. -/
theorem commit_failure_semantics_witness :
    Emit cfgFail s0 evA = ({ log := [], effects := ["invoice issued"] }, false) ∧
    evA ∉ (Emit cfgFail s0 evA).1.log :=
  ⟨(commit_failure_semantics cfgFail s0 evA rfl rfl).1,
   (commit_failure_semantics cfgFail s0 evA rfl rfl).2 (List.not_mem_nil evA)⟩

lemma lookup_cons {α : Type} (k k' : String) (v : α) (rest : List (String × α)) :
    List.lookup k' ((k, v) :: rest) =
      if k' = k then some v else List.lookup k' rest := by
  by_cases h : k' = k
  · subst h
    simp [List.lookup]
  · have hb : (k' == k) = false := beq_eq_false_iff_ne.mpr h
    rw [List.lookup, hb, if_neg h]

lemma mem_insertByPriority {σ : Type} (x b : OrderedReducer σ)
    (l : List (OrderedReducer σ)) :
    b ∈ insertByPriority x l ↔ b = x ∨ b ∈ l := by
  induction l with
  | nil => simp [insertByPriority]
  | cons z zs ih =>
    rw [insertByPriority]
    by_cases hxz : x.priority ≤ z.priority
    · rw [if_pos hxz]
      simp [List.mem_cons]
    · rw [if_neg hxz]
      simp only [List.mem_cons, ih]
      tauto

lemma insertByPriority_sorted {σ : Type} (x : OrderedReducer σ)
    (l : List (OrderedReducer σ)) (h : PrioritySorted l) :
    PrioritySorted (insertByPriority x l) := by
  induction l with
  | nil => exact List.Pairwise.cons (by simp) List.Pairwise.nil
  | cons y ys ih =>
    cases h with
    | cons hy hys =>
      by_cases hxy : x.priority ≤ y.priority
      · rw [insertByPriority, if_pos hxy]
        refine List.Pairwise.cons ?_ (List.Pairwise.cons hy hys)
        intro b hb
        rcases List.mem_cons.mp hb with hb | hb
        · exact hb ▸ hxy
        · exact le_trans hxy (hy b hb)
      · rw [insertByPriority, if_neg hxy]
        refine List.Pairwise.cons ?_ (ih hys)
        intro b hb
        rcases (mem_insertByPriority x b ys).mp hb with hb | hb
        · exact hb ▸ le_of_not_le hxy
        · exact hy b hb

lemma sortByPriority_of_sorted {σ : Type} (l : List (OrderedReducer σ))
    (h : PrioritySorted l) : sortByPriority l = l := by
  induction l with
  | nil => rfl
  | cons x xs ih =>
    cases h with
    | cons hx hxs =>
      have hstep : sortByPriority (x :: xs) =
          insertByPriority x (sortByPriority xs) := rfl
      rw [hstep, ih hxs]
      cases xs with
      | nil => rfl
      | cons y ys =>
        rw [insertByPriority, if_pos (hx y (List.mem_cons_self y ys))]

lemma applyOrdered_eq_filter {σ : Type} (name : String)
    (ors : List (OrderedReducer σ)) (st : σ) (ev : Event) :
    applyOrdered name ors st ev =
      (ors.filter fun r => r.stateName = name).foldl
        (fun acc r => r.reducer acc ev) st := by
  induction ors generalizing st with
  | nil => rfl
  | cons r rest ih =>
    have hstep : applyOrdered name (r :: rest) st ev =
        applyOrdered name rest
          (if r.stateName = name then r.reducer st ev else st) ev := rfl
    rw [hstep]
    by_cases hr : r.stateName = name
    · rw [if_pos hr]
      have hf : List.filter (fun x => decide (x.stateName = name)) (r :: rest) =
          r :: List.filter (fun x => decide (x.stateName = name)) rest :=
        List.filter_cons_of_pos (by simpa using hr)
      rw [hf, List.foldl_cons]
      exact ih _
    · rw [if_neg hr]
      have hf : List.filter (fun x => decide (x.stateName = name)) (r :: rest) =
          List.filter (fun x => decide (x.stateName = name)) rest :=
        List.filter_cons_of_neg (by simpa using hr)
      rw [hf]
      exact ih st

lemma getStateStep_eq_spec {σ : Type} (cfg : EngineConfig σ)
    (registry : StateRegistry σ) (name : String) (st : σ) (ev : Event)
    (hsorted : ∀ ors, List.lookup ev.type cfg.orderedReducers = some ors →
      PrioritySorted ors) :
    getStateStep cfg registry name st ev =
      specProjectStep cfg registry name st ev := by
  rw [getStateStep, specProjectStep]
  cases hlook : List.lookup ev.type cfg.orderedReducers with
  | none => rfl
  | some ors =>
    have hfs : PrioritySorted (ors.filter fun r => r.stateName = name) :=
      List.Pairwise.sublist (List.filter_sublist ors) (hsorted ors hlook)
    show applyOrdered name ors st ev =
      (sortByPriority (ors.filter fun r => r.stateName = name)).foldl
        (fun acc r => r.reducer acc ev) st
    rw [sortByPriority_of_sorted _ hfs, applyOrdered_eq_filter]

lemma lookup_mapRepl {α : Type} (m : List (String × α)) (k k' : String)
    (v : α) :
    List.lookup k' (m.map fun p => if p.1 = k then (k, v) else p) =
      if k' = k then (if (List.lookup k m).isSome then some v else none)
      else List.lookup k' m := by
  induction m with
  | nil => by_cases h : k' = k <;> simp [List.lookup, h]
  | cons a rest ih =>
    obtain ⟨ak, av⟩ := a
    by_cases hak : ak = k
    · subst hak
      rw [List.map_cons]
      rw [show (if (ak, av).1 = ak then (ak, v) else (ak, av)) = (ak, v)
        from if_pos rfl]
      by_cases hk' : k' = ak
      · subst hk'
        simp [lookup_cons, ih]
      · simp [lookup_cons, ih, hk']
    · rw [List.map_cons]
      rw [show (if (ak, av).1 = k then (k, v) else (ak, av)) = (ak, av)
        from if_neg hak]
      by_cases hk'a : k' = ak
      · subst hk'a
        simp [lookup_cons, ih, hak]
      · by_cases hk' : k' = k
        · subst hk'
          simp only [lookup_cons, ih, hak, hk'a]
          simp
        · simp [lookup_cons, ih, hak, hk'a, hk']

lemma lookup_append_pair {α : Type} (m : List (String × α)) (k k' : String)
    (v : α) :
    List.lookup k' (m ++ [(k, v)]) =
      if (List.lookup k' m).isSome then List.lookup k' m
      else (if k' = k then some v else none) := by
  induction m with
  | nil =>
    rw [List.nil_append, lookup_cons]
    simp [List.lookup]
  | cons a rest ih =>
    obtain ⟨ak, av⟩ := a
    rw [List.cons_append]
    by_cases hk'a : k' = ak
    · subst hk'a
      simp [lookup_cons, ih]
    · simp only [lookup_cons, ih, hk'a]
      simp

lemma lookup_mapSet {α : Type} (m : List (String × α)) (k k' : String)
    (v : α) :
    List.lookup k' (mapSet m k v) =
      if k' = k then some v else List.lookup k' m := by
  rw [mapSet]
  by_cases hsome : (List.lookup k m).isSome
  · rw [if_pos hsome, lookup_mapRepl]
    by_cases hk : k' = k <;> simp [hk, hsome]
  · rw [if_neg hsome, lookup_append_pair]
    cases hlk : List.lookup k' m with
    | none =>
      by_cases hk : k' = k <;> simp [hk, hlk]
    | some b =>
      by_cases hk : k' = k
      · subst hk
        rw [hlk] at hsome
        simp at hsome
      · simp [hk, hlk]

/-- C5. Projection contract: `GetState` is `none` on an unregistered
name and otherwise folds the whole log in commit order from the
registered initial value, per event preferring the ordered reducers of
the event's type — exactly those targeting the projected state, taken in
ascending priority order — over the state's own reducer map, and skipping
events with neither (`projectSpec` words that algorithm as the spec
does); `RegisterOrderedReducer` maintains the ascending-priority order
the hypothesis requires. -/
theorem projection_contract {σ : Type} (cfg : EngineConfig σ)
    (log : List Event) (name : String)
    (hsorted : ∀ t ors, List.lookup t cfg.orderedReducers = some ors →
      PrioritySorted ors) :
    GetState cfg log name = projectSpec cfg log name ∧
    (List.lookup name cfg.states = none → GetState cfg log name = none) ∧
    (∀ (t n : String) (r : StateReducer σ) (p : Int) (t' : String)
        (ors : List (OrderedReducer σ)),
      List.lookup t' (RegisterOrderedReducer cfg t n r p).orderedReducers =
        some ors → PrioritySorted ors) := by
  refine ⟨?_, ?_, ?_⟩
  · rw [GetState, projectSpec]
    cases hlook : List.lookup name cfg.states with
    | none => rfl
    | some registry =>
      have heq : log.foldl (getStateStep cfg registry name)
          registry.initialState =
          log.foldl (specProjectStep cfg registry name)
            registry.initialState :=
        List.foldl_ext _ _ _ fun st ev _ =>
          getStateStep_eq_spec cfg registry name st ev fun ors h =>
            hsorted ev.type ors h
      show some (log.foldl (getStateStep cfg registry name)
          registry.initialState) =
        some (log.foldl (specProjectStep cfg registry name)
          registry.initialState)
      rw [heq]
  · intro h
    rw [GetState, h]
  · intro t n r p t' ors h
    simp only [RegisterOrderedReducer] at h
    rw [lookup_mapSet] at h
    by_cases ht : t' = t
    · rw [if_pos ht] at h
      have hbase : PrioritySorted (lookupD cfg.orderedReducers t []) := by
        rw [lookupD]
        cases hl : List.lookup t cfg.orderedReducers with
        | none => exact List.Pairwise.nil
        | some l => exact hsorted t l hl
      have hins := insertByPriority_sorted
        { stateName := n, reducer := r, priority := p }
        (lookupD cfg.orderedReducers t []) hbase
      rw [← Option.some_inj.mp h]
      exact hins
    · rw [if_neg ht] at h
      exact hsorted t' ors h

lemma orsProj_sorted : PrioritySorted orsProj := by
  refine List.Pairwise.cons ?_ (List.Pairwise.cons (by simp) List.Pairwise.nil)
  intro b hb
  rw [List.mem_singleton] at hb
  subst hb
  decide

/-- C5 witness: in `cfgProj` the score event is handled by the ordered
reducer targeting "counter" (priority 1) and the order event by the
state's own reducer; `GetState` agrees with the spec-worded fold, and an
unregistered name projects to `none`. -/
theorem projection_contract_witness :
    GetState cfgProj [evA, evScore] "counter" =
      projectSpec cfgProj [evA, evScore] "counter" ∧
    GetState cfgProj [evA, evScore] "missing" = none :=
  have hsorted : ∀ t ors, List.lookup t cfgProj.orderedReducers = some ors →
      PrioritySorted ors := by
    intro t ors h
    by_cases ht : t = "score"
    · subst ht
      have h2 : (some orsProj : Option (List (OrderedReducer Int))) =
          some ors := by rw [← h]; rfl
      obtain rfl : orsProj = ors := Option.some_inj.mp h2
      exact orsProj_sorted
    · exfalso
      rw [show cfgProj.orderedReducers = [("score", orsProj)] from rfl,
        lookup_cons, if_neg ht] at h
      simp [List.lookup] at h
  ⟨(projection_contract cfgProj [evA, evScore] "counter" hsorted).1,
   (projection_contract cfgProj [evA, evScore] "missing" hsorted).2.1 rfl⟩

lemma decodeLoop_marshal {σ : Type} (cfg : EngineConfig σ)
    (events : List Event)
    (hreg : ∀ ev ∈ events, ∃ f,
      List.lookup ev.type cfg.eventFactories = some f ∧
      f.decode ev.data = some ev) :
    decodeLoop cfg (MarshalEvents events) = events := by
  induction events with
  | nil => rfl
  | cons ev rest ih =>
    obtain ⟨f, hf, hdec⟩ := hreg ev (List.mem_cons_self ev rest)
    have hstep : MarshalEvents (ev :: rest) =
        { type := ev.type, data := ev.data } :: MarshalEvents rest := rfl
    rw [hstep, decodeLoop]
    simp only [hf, hdec]
    rw [ih fun e he => hreg e (List.mem_cons_of_mem ev he)]

/-- C6. Round-trip law: when every event's type name carries a factory
that decodes the event's own serialized payload back to it (what Go's
reflection decode does for the registered concrete type),
`UnmarshalEvents ∘ MarshalEvents` restores the list exactly, so
installing the restored list as the log gives the same `GetState` for
every state name; and on a fixed log the pure fold gives equal results
on repeated calls. -/
theorem serialization_round_trip {σ : Type} (cfg : EngineConfig σ)
    (events : List Event)
    (hreg : ∀ ev ∈ events, ∃ f,
      List.lookup ev.type cfg.eventFactories = some f ∧
      f.decode ev.data = some ev) :
    UnmarshalEvents cfg (JsonDoc.wrappers (MarshalEvents events)) =
      Except.ok events ∧
    (∀ events' : List Event,
      UnmarshalEvents cfg (JsonDoc.wrappers (MarshalEvents events)) =
        Except.ok events' →
      ∀ name, GetState cfg events' name = GetState cfg events name) ∧
    (∀ (log : List Event) (name : String),
      GetState cfg log name = GetState cfg log name) := by
  have hmain : UnmarshalEvents cfg (JsonDoc.wrappers (MarshalEvents events)) =
      Except.ok events := by
    rw [UnmarshalEvents, decodeLoop_marshal cfg events hreg]
  refine ⟨hmain, ?_, fun _ _ => rfl⟩
  intro events' h
  rw [hmain] at h
  cases h
  intro name
  rfl

/-- C6 witness: the order event round-trips through `cfgSer`'s factory
and projects identically. -/
theorem serialization_round_trip_witness :
    UnmarshalEvents cfgSer (JsonDoc.wrappers (MarshalEvents [evA])) =
      Except.ok [evA] ∧
    GetState cfgSer [evA] "counter" = GetState cfgSer [evA] "counter" :=
  have hreg : ∀ ev ∈ [evA], ∃ f,
      List.lookup ev.type cfgSer.eventFactories = some f ∧
      f.decode ev.data = some ev := by
    intro ev hv
    rw [List.mem_singleton] at hv
    subst hv
    exact ⟨factOrder, rfl, rfl⟩
  ⟨(serialization_round_trip cfgSer [evA] hreg).1,
   (serialization_round_trip cfgSer [evA] hreg).2.2 [evA] "counter"⟩

/-- C7. Snapshot-merge fail-soft overlay (modelled from the spec, the
merge code not being among the sources): an empty snapshot leaves any
initial value unchanged; a one-field snapshot overrides exactly that
field; malformed snapshot bytes, or an initial value whose serialization
fails, fall back to the initial value unchanged. -/
theorem snapshot_merge_fail_soft :
    (∀ initial, mergeSnapshot initial (SnapshotDoc.fields []) = initial) ∧
    (∀ (fs : List (String × Prim)) (f : String) (v : Prim),
      mergeSnapshot (SnapState.record fs) (SnapshotDoc.fields [(f, v)]) =
        SnapState.record
          (fs.map fun kv => if kv.1 = f then (kv.1, v) else kv)) ∧
    (∀ initial raw, mergeSnapshot initial (SnapshotDoc.malformed raw) = initial) ∧
    (∀ initial snap, serializeState initial = none →
      mergeSnapshot initial snap = initial) := by
  refine ⟨?_, ?_, ?_, ?_⟩
  · intro initial
    cases initial with
    | record fs =>
      show SnapState.record (overlayFields fs []) = SnapState.record fs
      rw [overlayFields]
      simp [List.lookup]
    | unserializable tag => rfl
  · intro fs f v
    show SnapState.record (overlayFields fs [(f, v)]) = _
    rw [overlayFields]
    refine congrArg SnapState.record (List.map_congr_left ?_)
    intro kv _
    by_cases hk : kv.1 = f
    · simp [lookup_cons, hk]
    · simp [lookup_cons, hk]
  · intro initial raw
    cases initial <;> rfl
  · intro initial snap h
    cases initial with
    | record fs => exact absurd h (by simp [serializeState])
    | unserializable tag => cases snap <;> rfl

/-- C7 witness: an unserializable initial value survives any snapshot
unchanged, and a one-field overlay rewrites just that field. -/
theorem snapshot_merge_fail_soft_witness :
    mergeSnapshot (SnapState.unserializable 0)
      (SnapshotDoc.fields [("score", Prim.pint 100)]) =
      SnapState.unserializable 0 ∧
    mergeSnapshot (SnapState.record [("score", Prim.pint 0), ("level", Prim.pint 1)])
      (SnapshotDoc.fields [("score", Prim.pint 100)]) =
      SnapState.record [("score", Prim.pint 100), ("level", Prim.pint 1)] :=
  ⟨snapshot_merge_fail_soft.2.2.2 (SnapState.unserializable 0)
      (SnapshotDoc.fields [("score", Prim.pint 100)]) rfl,
   snapshot_merge_fail_soft.2.1 [("score", Prim.pint 0), ("level", Prim.pint 1)]
      "score" (Prim.pint 100)⟩

lemma decodeLoop_eq_filterMap {σ : Type} (cfg : EngineConfig σ)
    (ws : List EventWrapper) :
    decodeLoop cfg ws = ws.filterMap (decodeWrapper cfg) := by
  induction ws with
  | nil => rfl
  | cons w rest ih =>
    cases hf : List.lookup w.type cfg.eventFactories with
    | none =>
      have hw : decodeWrapper cfg w = none := by simp [decodeWrapper, hf]
      simp only [decodeLoop, List.filterMap_cons, hf, hw]
      exact ih
    | some factory =>
      cases hd : factory.decode w.data with
      | none =>
        have hw : decodeWrapper cfg w = none := by
          simp [decodeWrapper, hf, hd]
        simp only [decodeLoop, List.filterMap_cons, hf, hd, hw]
        exact ih
      | some event =>
        have hw : decodeWrapper cfg w = some event := by
          simp [decodeWrapper, hf, hd]
        simp only [decodeLoop, List.filterMap_cons, hf, hd, hw]
        rw [ih]

/-- C8. Fail-soft deserialization: on a well-formed wrapper stream the
result is exactly the order-preserving `filterMap` that keeps each
wrapper whose type name has a factory and whose payload decodes — a
wrapper with no registered factory, or whose payload fails re-encoding
or decoding, is dropped without error; only a malformed top-level
document yields an error. -/
theorem fail_soft_deserialization {σ : Type} (cfg : EngineConfig σ)
    (ws : List EventWrapper) (raw : String) :
    UnmarshalEvents cfg (JsonDoc.wrappers ws) =
      Except.ok (ws.filterMap (decodeWrapper cfg)) ∧
    (∀ w ∈ ws, List.lookup w.type cfg.eventFactories = none →
      decodeWrapper cfg w = none) ∧
    UnmarshalEvents cfg (JsonDoc.malformed raw) =
      Except.error "invalid JSON" := by
  refine ⟨?_, ?_, rfl⟩
  · rw [UnmarshalEvents, decodeLoop_eq_filterMap]
  · intro w _ hw
    rw [decodeWrapper, hw]
    rfl

/-- C8 witness: an unknown type name and a failing payload are both
dropped while the decodable wrapper survives, in order. -/
theorem fail_soft_deserialization_witness :
    UnmarshalEvents cfgSer (JsonDoc.wrappers [wUnknown, wBad, wGood]) =
      Except.ok [{ type := "order_placed", data := wGood.data }] ∧
    decodeWrapper cfgSer wUnknown = none :=
  ⟨(fail_soft_deserialization cfgSer [wUnknown, wBad, wGood] "x").1,
   (fail_soft_deserialization cfgSer [wUnknown, wBad, wGood] "x").2.1 wUnknown
     (by simp) rfl⟩

/-- C9. Hard failure on log replacement: a `SetAll` error propagates out
of `SetEvents` as a panic (carrying the repository's message) instead of
being swallowed; a successful `SetAll` leaves the stored log, which for
the in-memory repository is exactly the given list. -/
theorem set_events_hard_failure
    (setAll : List Event → Except String (List Event))
    (events stored : List Event) (msg : String) :
    (setAll events = Except.error msg →
      SetEvents setAll events =
        Except.error ("failed to set events in repository: " ++ msg)) ∧
    (setAll events = Except.ok stored →
      SetEvents setAll events = Except.ok stored) ∧
    SetEvents inMemorySetAll events = Except.ok events := by
  refine ⟨?_, ?_, rfl⟩
  · intro h
    rw [SetEvents, h]
  · intro h
    rw [SetEvents, h]

/-- C9 witness: the simulated failing repository panics with the
prefixed message; the in-memory repository stores the list exactly. -/
theorem set_events_hard_failure_witness :
    SetEvents failSetAll [evA] =
      Except.error
        "failed to set events in repository: simulated repository failure" ∧
    SetEvents inMemorySetAll [evA] = Except.ok [evA] :=
  ⟨(set_events_hard_failure failSetAll [evA] [] "simulated repository failure").1
      rfl,
   (set_events_hard_failure failSetAll [evA] [] "x").2.2⟩

lemma heapRead_append_lt (h : Heap) (a : List Event) (r : Nat)
    (hr : r < h.length) : heapRead (h ++ [a]) r = heapRead h r := by
  rw [heapRead, heapRead, List.getD_append _ _ _ _ hr]

lemma heapRead_append_self (h : Heap) (a : List Event) :
    heapRead (h ++ [a]) h.length = a := by
  rw [heapRead, List.getD_append_right _ _ _ _ (Nat.le_refl _)]
  simp

lemma heapRead_set_ne (h : Heap) (r r' : Nat) (a : List Event)
    (hne : r ≠ r') : heapRead (h.set r a) r' = heapRead h r' := by
  rw [heapRead, heapRead, List.getD_eq_getElem?_getD,
    List.getElem?_set_ne hne, ← List.getD_eq_getElem?_getD]

lemma heapRead_write_ne (h : Heap) (r r' i : Nat) (ev : Event)
    (hne : r ≠ r') : heapRead (heapWrite h r i ev) r' = heapRead h r' := by
  rw [heapWrite]
  exact heapRead_set_ne _ _ _ _ hne

/-- C10. Log isolation: `GetAll` returns a freshly allocated copy of the
stored events, so writing through the returned slice leaves the stored
array — the one the engine folds and returns thereafter — unchanged; and
`SetAll` stores a freshly allocated copy of the caller's slice, so later
writes through the caller's slice leave the stored log unchanged. -/
theorem log_isolation (h : Heap) (repo : InMemory) (ref i : Nat) (ev : Event)
    (hr : repo.eventsRef < h.length) (hc : ref < h.length) :
    (heapRead (InMemory.GetAll h repo).1 (InMemory.GetAll h repo).2 =
      heapRead h repo.eventsRef) ∧
    ((InMemory.GetAll h repo).2 ≠ repo.eventsRef) ∧
    (heapRead
      (heapWrite (InMemory.GetAll h repo).1 (InMemory.GetAll h repo).2 i ev)
      repo.eventsRef = heapRead h repo.eventsRef) ∧
    (heapRead (InMemory.SetAll h repo ref).1
      (InMemory.SetAll h repo ref).2.eventsRef = heapRead h ref) ∧
    ((InMemory.SetAll h repo ref).2.eventsRef ≠ ref) ∧
    (heapRead (heapWrite (InMemory.SetAll h repo ref).1 ref i ev)
      (InMemory.SetAll h repo ref).2.eventsRef = heapRead h ref) := by
  have hget1 : (InMemory.GetAll h repo).1 = h ++ [heapRead h repo.eventsRef] :=
    rfl
  have hget2 : (InMemory.GetAll h repo).2 = h.length := rfl
  have hset1 : (InMemory.SetAll h repo ref).1 = h ++ [heapRead h ref] := rfl
  have hset2 : (InMemory.SetAll h repo ref).2.eventsRef = h.length := rfl
  refine ⟨?_, ?_, ?_, ?_, ?_, ?_⟩
  · rw [hget1, hget2, heapRead_append_self]
  · rw [hget2]
    exact Nat.ne_of_gt hr
  · rw [hget1, hget2,
      heapRead_write_ne (h ++ [heapRead h repo.eventsRef]) (List.length h)
        repo.eventsRef i ev (Ne.symm (Nat.ne_of_lt hr)),
      heapRead_append_lt _ _ _ hr]
  · rw [hset1, hset2, heapRead_append_self]
  · rw [hset2]
    exact Nat.ne_of_gt hc
  · rw [hset1, hset2,
      heapRead_write_ne (h ++ [heapRead h ref]) ref (List.length h) i ev
        (Nat.ne_of_lt hc),
      heapRead_append_self]

/-- C10 witness: after copying out the one-array heap, overwriting the
returned slice's first element leaves the stored events intact. -/
theorem log_isolation_witness :
    heapRead
      (heapWrite (InMemory.GetAll h0 repo0).1 (InMemory.GetAll h0 repo0).2
        0 evB) repo0.eventsRef = [evA] ∧
    heapRead (heapWrite (InMemory.SetAll h0 repo0 0).1 0 0 evB)
      (InMemory.SetAll h0 repo0 0).2.eventsRef = [evA] :=
  ⟨(log_isolation h0 repo0 0 0 evB (by decide) (by decide)).2.2.1,
   (log_isolation h0 repo0 0 0 evB (by decide) (by decide)).2.2.2.2.2⟩

end Atmos
